/-
Verification of the univariate kernel density estimation routines of
scikits/statsmodels/sandbox/nonparametric/kde.py.

The Python code is shallowly embedded: numpy float arrays become `List ℝ`
(real arithmetic stands in for floating point), the non-finite float values
that matter only for the clipping comparisons are modelled by the `FloatV`
type, Python exceptions (ValueError, IndexError, NameError, TypeError)
become `Except String`, and `np.fft.rfft`/`np.fft.irfft` are embedded by
their defining discrete-Fourier sums over ℂ.
-/
import Mathlib

open scoped BigOperators

/-! ## Float values and clipping

`kdensity` and `kdensityfft` both start with
`X = X[np.logical_and(X>clip[0], X<clip[1])]`.  The default clip bounds are
`(-np.inf, np.inf)` and the sample may hold `nan`/`inf` entries, so the
comparison semantics of non-finite IEEE values is what decides which
observations survive: any comparison with `nan` is false, `inf < inf` and
`-inf > -inf` are false.  `FloatV` models exactly this classification. -/

/-- A numpy float64 as far as ordering is concerned: a finite real value,
one of the two infinities, or `nan`. -/
inductive FloatV : Type
  | val (x : ℝ)
  | posInf
  | negInf
  | nan

/-- The finite payload of a float value, if any. -/
def FloatV.finitePart : FloatV → Option ℝ
  | .val x => some x
  | _ => none

/-- Whether a float value is finite. -/
def FloatV.isFinite : FloatV → Bool
  | .val _ => true
  | _ => false

/-- IEEE-754 strict less-than on `FloatV`: every comparison involving `nan`
is false; `-inf` is below everything except itself and `nan`; `+inf` is
above everything except itself and `nan`. -/
noncomputable def fltLt : FloatV → FloatV → Bool
  | .nan, _ => false
  | _, .nan => false
  | .negInf, .negInf => false
  | .negInf, _ => true
  | _, .negInf => false
  | .posInf, .posInf => false
  | .posInf, _ => false
  | _, .posInf => true
  | .val a, .val b => decide (a < b)

/-- Embedding of `X[np.logical_and(X>clip[0], X<clip[1])]` (kde.py lines
144 and 230): keep the observations strictly between the clip bounds.  Every
retained observation is necessarily finite (nothing is strictly below `nan`
or strictly below `+inf`, etc.), so the retained sample is returned as its
list of real payloads. -/
noncomputable def clipList (lo hi : FloatV) (X : List FloatV) : List ℝ :=
  (X.filter (fun x => fltLt lo x && fltLt x hi)).filterMap FloatV.finitePart

/-- The finite payloads of a float list, in order. -/
def finiteList (X : List FloatV) : List ℝ :=
  X.filterMap FloatV.finitePart

/-- Python `str.lower()` on the ASCII selector strings used here: lower-case
every character. -/
def strLower (s : String) : String :=
  ⟨s.data.map Char.toLower⟩

/-! ## Linear binning (kde.py lines 55-72, `linbin`) -/

/-- Python `int()` applied to a real: truncation toward zero. -/
def pytrunc {α : Type} [LinearOrderedField α] [FloorRing α] (r : α) : ℤ :=
  if r < 0 then -⌊-r⌋ else ⌊r⌋

/-- One iteration of the `for x in X` loop of `linbin`.  The grid counts `g`
have length `M`.  When `1 < li < M` the code adds `1-rem` to `gcnts[li]` and
`rem` to `gcnts[li+1]`; the second write is out of bounds when `li+1 = M`
(numpy raises IndexError).  When `li > M` and `trunc == 0` the code runs
`gcnts[M] = gncts[M] + 1`, and the name `gncts` is undefined (Python raises
NameError before any indexing). -/
def linbinStep {α : Type} [LinearOrderedField α] [FloorRing α]
    (a b : α) (M : ℕ) (trunc : ℕ) (g : List α) (x : α) : Except String (List α) :=
  let delta := (b - a) / ((M : α) - 1)
  let lxi := (x - a) / delta
  let li := pytrunc lxi
  let rem := lxi - (li : α)
  (if 1 < li ∧ li < (M : ℤ) then
    (if li + 1 < (M : ℤ) then
      let g1 := g.set li.toNat (g.getD li.toNat 0 + (1 - rem))
      Except.ok (g1.set (li + 1).toNat (g1.getD (li + 1).toNat 0 + rem))
    else Except.error "IndexError: index out of bounds for axis 0")
  else Except.ok g).bind (fun g2 =>
    if (M : ℤ) < li ∧ trunc = 0 then
      Except.error "NameError: name gncts is not defined"
    else Except.ok g2)

/-- Embedding of `linbin(X, a, b, M, trunc)`: start from `np.zeros(M)` and
fold the loop body over the observations; any exception aborts the call. -/
def linbin {α : Type} [LinearOrderedField α] [FloorRing α]
    (X : List α) (a b : α) (M : ℕ) (trunc : ℕ) : Except String (List α) :=
  X.foldl (fun acc x => acc.bind (fun g => linbinStep a b M trunc g x))
    (Except.ok (List.replicate M 0))

/-- The integer part `li = int(lxi)` of an observation's fractional grid
position in `linbin`. -/
def linbinIdx {α : Type} [LinearOrderedField α] [FloorRing α]
    (a b : α) (M : ℕ) (x : α) : ℤ :=
  pytrunc ((x - a) / ((b - a) / ((M : α) - 1)))

/-- The remainder `rem = lxi - li` of an observation's fractional grid
position in `linbin`. -/
def linbinRem {α : Type} [LinearOrderedField α] [FloorRing α]
    (a b : α) (M : ℕ) (x : α) : α :=
  (x - a) / ((b - a) / ((M : α) - 1)) - ((linbinIdx a b M x : ℤ) : α)

/-! ## Spectral transforms (kde.py lines 20-53) -/

/-- Bin `k` of `np.fft.rfft(X, m)` (for `m = len(X)`, the only use here):
`∑_{l<m} X[l]·exp(-2πi·l·k/m)`. -/
noncomputable def rfftBins (X : List ℝ) (m : ℕ) (k : ℕ) : ℂ :=
  ∑ l ∈ Finset.range m,
    ((X.getD l 0 : ℝ) : ℂ) * Complex.exp (-(2 * Real.pi * Complex.I * l * k) / m)

/-- Embedding of `forrt(X)` (default `m = len(X)`): `y = np.fft.rfft(X,m)/m`
followed by the Munro packing `np.r_[y.real, y[1:-1].imag]`. -/
noncomputable def forrt (X : List ℝ) : List ℝ :=
  let m := X.length
  let y : List ℂ := (List.range (m / 2 + 1)).map (fun k => rfftBins X m k / m)
  y.map Complex.re ++ ((y.drop 1).dropLast).map Complex.im

/-- Embedding of `np.fft.irfft(y)` producing `m` output points: extend the
half spectrum `y` (length `m/2+1`) to a full spectrum by conjugate symmetry
and take the real part of the inverse discrete Fourier transform. -/
noncomputable def irfft (y : List ℂ) (m : ℕ) : List ℝ :=
  (List.range m).map (fun (j : ℕ) =>
    ((∑ k ∈ Finset.range m,
        (if k ≤ m / 2 then y.getD k 0 else (starRingEnd ℂ) (y.getD (m - k) 0)) *
          Complex.exp (2 * Real.pi * Complex.I * j * k / m)) / m).re)

/-- Embedding of `revrt(X)` (default `m = len(X)`): rebuild the complex half
spectrum `X[:m/2+1] + np.r_[0, X[m/2+1:], 0]*1j`, invert, and scale by `m`. -/
noncomputable def revrt (X : List ℝ) : List ℝ :=
  let m := X.length
  let y : List ℂ :=
    List.zipWith (fun (re : ℝ) (im : ℝ) => (re : ℂ) + (im : ℂ) * Complex.I)
      (X.take (m / 2 + 1)) ((0 : ℝ) :: (X.drop (m / 2 + 1) ++ [(0 : ℝ)]))
  (irfft y m).map (fun v => v * (m : ℝ))

/-- The factor `FAC[j] = exp(-J²·FAC1)/BC` of `silverman_transform` at
frequency index `j`, with `FAC1 = 2*(π*bw/RANGE)²` and
`BC = 1 - 1/3*(J*1/M*π)²` (kde.py lines 46-51). -/
noncomputable def silvermanFAC (M : ℕ) (bw RANGE : ℝ) (j : ℕ) : ℝ :=
  Real.exp (-((j : ℝ) ^ 2 * (2 * (Real.pi * bw / RANGE) ^ 2))) /
    (1 - 1 / 3 * ((j : ℝ) * 1 / (M : ℝ) * Real.pi) ^ 2)

/-- Embedding of `silverman_transform(X, bw, RANGE)`:
`SMOOTH = np.r_[FAC, FAC[1:-1]] * X` with `FAC` over `J = 0..M/2`. -/
noncomputable def silverman_transform (X : List ℝ) (bw RANGE : ℝ) : List ℝ :=
  let M := X.length
  let FAC : List ℝ := (List.range (M / 2 + 1)).map (silvermanFAC M bw RANGE)
  List.zipWith (fun f x => f * x) (FAC ++ (FAC.drop 1).dropLast) X

/-! ## Grid helpers -/

/-- Embedding of `np.linspace(a, b, n)` (with endpoint): point `i` is
`a + (b-a)·i/(n-1)`. -/
noncomputable def linspace (a b : ℝ) (n : ℕ) : List ℝ :=
  (List.range n).map (fun (i : ℕ) => a + (b - a) * (i : ℝ) / ((n : ℝ) - 1))

/-- Embedding of `np.min` on a nonempty sample (0 on the empty list, a case
the estimators reject before reaching it). -/
noncomputable def listMin : List ℝ → ℝ
  | [] => 0
  | x :: xs => xs.foldl min x

/-- Embedding of `np.max` on a nonempty sample. -/
noncomputable def listMax : List ℝ → ℝ
  | [] => 0
  | x :: xs => xs.foldl max x

/-- Mean of a list of reals, `np.mean` over one axis: sum divided by length. -/
noncomputable def rowMean (l : List ℝ) : ℝ :=
  l.sum / (l.length : ℝ)

/-- Embedding of `np.std(X, ddof=1)`: square root of the sum of squared
deviations from the mean divided by `n-1`. -/
noncomputable def stdev (l : List ℝ) : ℝ :=
  Real.sqrt ((l.map (fun x => (x - rowMean l) ^ 2)).sum / ((l.length : ℝ) - 1))

/-- Grid size resolution shared by `kdensity` (lines 159-162) and
`kdensityfft` (lines 241-243): when no size is requested start from
`np.max((nobs, 512.))`, otherwise from the requested size, and round up to
the next power of two with `2**np.ceil(np.log2(gridsize))`.  Over the
positive integers that float computation equals `2 ^ Nat.clog 2 _`
(theorem `resolveGridsize_eq_real` below certifies the translation). -/
def resolveGridsize (gridsize : Option ℕ) (nobs : ℕ) : ℕ :=
  match gridsize with
  | none => 2 ^ Nat.clog 2 (max nobs 512)
  | some g => 2 ^ Nat.clog 2 g

/-- The literal real-arithmetic reading of `2**np.ceil(np.log2(gridsize))`
applied to the resolution inputs of `resolveGridsize`. -/
noncomputable def resolveGridsizeR (gridsize : Option ℝ) (nobs : ℝ) : ℝ :=
  match gridsize with
  | none => 2 ^ (⌈Real.logb 2 (max nobs 512)⌉)
  | some g => 2 ^ (⌈Real.logb 2 g⌉)

/-- `y` is the smallest power of two that is at least `x`. -/
def isLeastPow2Ge (y x : ℕ) : Prop :=
  (∃ k : ℕ, y = 2 ^ k) ∧ x ≤ y ∧ ∀ z : ℕ, x ≤ 2 ^ z → y ≤ 2 ^ z

/-! ## Bandwidth selection (kde.py lines 94-106)

The rule-of-thumb bandwidth functions `bw_scott` and `bw_silverman` live in
the separate `bandwidths` module, which is not part of the staged sources;
the spec treats them as external collaborators ("the core consumes a scalar
bandwidth value from them but does not need to reproduce their derivation").
They are therefore modelled as an arbitrary pair of sample-to-scalar
functions supplied as a parameter. -/

/-- Modelled from the spec: the external bandwidth provider, a pair of
functions taking a sample and returning a scalar bandwidth (the "scott" and
"silverman" rules of the `bandwidths` module, whose code is not under
src/). -/
structure BandwidthFuncs : Type where
  scott : List ℝ → ℝ
  silverman : List ℝ → ℝ

/-- Embedding of `select_bandwidth(X, bw, kernel)`: lower-case the name,
reject anything but "scott"/"silverman", then require the "gauss" kernel
and delegate to `bandwidth_funcs[bw](X)`. -/
def select_bandwidth (bf : BandwidthFuncs) (X : List ℝ) (bw : String)
    (kernel : String) : Except String ℝ :=
  let bwl := strLower bw
  if ¬(bwl = "scott" ∨ bwl = "silverman") then
    Except.error ("Bandwidth " ++ bwl ++ " not understood")
  else if kernel = "gauss" then
    Except.ok (if bwl = "scott" then bf.scott X else bf.silverman X)
  else Except.error "Only Gaussian Kernels are currently supported"

/-- The bandwidth argument of `kdensityfft`: either a value that
`float(bw)` parses (a number or numeric text), or a rule name for which
`float(bw)` raises and `select_bandwidth` is consulted. -/
inductive BwSpec : Type
  | num (c : ℝ)
  | name (s : String)

/-! ## Direct estimator (kde.py lines 111-187, `kdensity`) -/

/-- The pointwise kernel evaluation of `kdensity` at scaled distance `u`:
for "epa" the code computes
`np.less_equal(np.abs(k), np.sqrt(5)) * 3/(4*np.sqrt(5)) * (1-.2*k**2)`
(the added `np.zeros_like(grid)` only broadcasts), for "gauss" it computes
`1/np.sqrt(2*np.pi)*np.exp(-.5*k**2)`, and for any other kernel the scaled
distances are left untouched. -/
noncomputable def kval (kernel : String) (u : ℝ) : ℝ :=
  if strLower kernel = "epa" then
    (if |u| ≤ Real.sqrt 5 then 1 else 0) * 3 / (4 * Real.sqrt 5) * (1 - 0.2 * u ^ 2)
  else if strLower kernel = "gauss" then
    1 / Real.sqrt (2 * Real.pi) * Real.exp (-0.5 * u ^ 2)
  else u

/-- The contribution matrix `k = (X.T - grid)/h` of `kdensity` after the
kernel is applied: one row per grid point, one column per observation. -/
noncomputable def kdContrib (kernel : String) (Xc grid : List ℝ) (h : ℝ) :
    List (List ℝ) :=
  grid.map (fun gp => Xc.map (fun x => kval kernel ((x - gp) / h)))

/-- Embedding of `kdensity` after the clipping step, on the already clipped
sample `Xc`.  With `bw=None` the code computes the rule-of-thumb `h`
(NameError when the kernel has no constant); the grid construction
`np.linspace(np.min(X)-cut*bw, ...)` then uses the original `bw`, which is
a TypeError when `bw` is `None`.  `q = 1` and `weights = 1` as in the
source. -/
noncomputable def kdensityCore (Xc : List ℝ) (kernel : String) (bw : Option ℝ)
    (gridsize : Option ℕ) (cut : ℝ) (retgrid : Bool) :
    Except String (List ℝ × List (List ℝ) × Option (List ℝ)) :=
  let nobs : ℝ := Xc.length
  (match bw with
   | some c => Except.ok c
   | none =>
     if strLower kernel = "gauss" then
       Except.ok (1.0592 * stdev Xc * nobs ^ (-(1 / 5) : ℝ))
     else if strLower kernel = "epa" then
       Except.ok (1.0487 * stdev Xc * nobs ^ (-(1 / 5) : ℝ))
     else Except.error "NameError: name c is not defined").bind (fun h =>
  let M := resolveGridsize gridsize Xc.length
  if Xc.isEmpty then
    Except.error "ValueError: zero-size array to reduction operation"
  else
    match bw with
    | none => Except.error "TypeError: unsupported operand type for NoneType"
    | some c =>
      let grid := linspace (listMin Xc - cut * c) (listMax Xc + cut * c) M
      let kmat := kdContrib kernel Xc grid h
      let q : ℝ := 1
      let w : ℝ := 1
      let dens := kmat.map (fun row : List ℝ =>
        rowMean (row.map (fun v => 1 / (q * h) * w * v)))
      let contrib := kmat.map (fun row : List ℝ =>
        row.map (fun v => v / (q * h) * w))
      Except.ok (dens, contrib, if retgrid then some grid else none))

/-- Embedding of `kdensity(X, kernel, bw, weights, gridsize, axis, clip,
cut, retgrid)` for a one-column sample: clip, then run the core. -/
noncomputable def kdensity (X : List FloatV) (kernel : String) (bw : Option ℝ)
    (gridsize : Option ℕ) (clip : FloatV × FloatV) (cut : ℝ) (retgrid : Bool) :
    Except String (List ℝ × List (List ℝ) × Option (List ℝ)) :=
  kdensityCore (clipList clip.1 clip.2 X) kernel bw gridsize cut retgrid

/-! ## FFT estimator (kde.py lines 191-280, `kdensityfft`) -/

/-- Embedding of `kdensityfft` after the clipping step, on the already
clipped sample `Xc`: resolve the bandwidth (`float(bw)` succeeds on a
`BwSpec.num`, otherwise `select_bandwidth` runs), scale by `adjust`,
resolve the grid size, build the grid bounds `a`/`b` with `np.min`/`np.max`
(ValueError on an empty sample), bin with `linbin`, normalise by
`delta*nobs`, and run `revrt ∘ silverman_transform ∘ forrt`. -/
noncomputable def kdensityfftCore (bf : BandwidthFuncs) (Xc : List ℝ)
    (kernel : String) (bw : BwSpec) (adjust : ℝ) (gridsize : Option ℕ)
    (cut : ℝ) (retgrid : Bool) : Except String (List ℝ × Option (List ℝ)) :=
  (match bw with
   | BwSpec.num c => Except.ok c
   | BwSpec.name s => select_bandwidth bf Xc s kernel).bind (fun bw0 =>
  let bw1 := bw0 * adjust
  let nobs : ℝ := Xc.length
  let M : ℕ := resolveGridsize gridsize Xc.length
  if Xc.isEmpty then
    Except.error "ValueError: zero-size array to reduction operation"
  else
    let a := listMin Xc - cut * bw1
    let b := listMax Xc + cut * bw1
    let grid := linspace a b M
    let delta := (b - a) / ((M : ℝ) - 1)
    let RANGE := b - a
    (linbin Xc a b M 1).bind (fun binnedRaw =>
      let binned := binnedRaw.map (fun w => w / (delta * nobs))
      let y := forrt binned
      let zstar := silverman_transform y bw1 RANGE
      let f := revrt zstar
      Except.ok (f, if retgrid then some grid else none)))

/-- Embedding of `kdensityfft(X, kernel, bw, adjust, weights, gridsize,
clip, cut, retgrid)`: clip, then run the core. -/
noncomputable def kdensityfft (bf : BandwidthFuncs) (X : List FloatV)
    (kernel : String) (bw : BwSpec) (adjust : ℝ) (gridsize : Option ℕ)
    (clip : FloatV × FloatV) (cut : ℝ) (retgrid : Bool) :
    Except String (List ℝ × Option (List ℝ)) :=
  kdensityfftCore bf (clipList clip.1 clip.2 X) kernel bw adjust gridsize cut
    retgrid

/-! ## Helper lemmas -/

/-- Over the positive integers, the float computation
`2**np.ceil(np.log2(g))` agrees with `2 ^ Nat.clog 2 g`: the ceiling of the
base-2 logarithm equals `Nat.clog 2`. -/
theorem ceil_logb_eq_clog (g : ℕ) (hg : 1 ≤ g) :
    ⌈Real.logb 2 (g : ℝ)⌉ = (Nat.clog 2 g : ℤ) := by
  have h2 : (1 : ℝ) < 2 := one_lt_two
  have hgpos : (0 : ℝ) < g := by exact_mod_cast hg
  apply le_antisymm
  · apply Int.ceil_le.mpr
    have hle : (g : ℝ) ≤ (2 : ℝ) ^ ((Nat.clog 2 g : ℕ) : ℝ) := by
      have h := Nat.le_pow_clog (b := 2) (by norm_num) g
      have : ((2 ^ Nat.clog 2 g : ℕ) : ℝ) = (2 : ℝ) ^ ((Nat.clog 2 g : ℕ) : ℝ) := by
        rw [Real.rpow_natCast]; push_cast; ring
      calc (g : ℝ) ≤ ((2 ^ Nat.clog 2 g : ℕ) : ℝ) := by exact_mod_cast h
        _ = (2 : ℝ) ^ ((Nat.clog 2 g : ℕ) : ℝ) := this
    have := (Real.logb_le_iff_le_rpow h2 hgpos).mpr hle
    push_cast
    exact this
  · have hnn : 0 ≤ ⌈Real.logb 2 (g : ℝ)⌉ :=
      Int.ceil_nonneg (Real.logb_nonneg h2 (by exact_mod_cast hg))
    obtain ⟨k, hk⟩ : ∃ k : ℕ, ⌈Real.logb 2 (g : ℝ)⌉ = (k : ℤ) :=
      ⟨(⌈Real.logb 2 (g : ℝ)⌉).toNat, (Int.toNat_of_nonneg hnn).symm⟩
    rw [hk]
    have hgle : (g : ℝ) ≤ (2 : ℝ) ^ ((k : ℕ) : ℝ) := by
      have h1 : Real.logb 2 (g : ℝ) ≤ ((k : ℕ) : ℝ) := by
        have := Int.le_ceil (Real.logb 2 (g : ℝ))
        rw [hk] at this
        exact_mod_cast this
      calc (g : ℝ) = (2 : ℝ) ^ Real.logb 2 (g : ℝ) :=
            (Real.rpow_logb (by norm_num) (by norm_num) hgpos).symm
        _ ≤ (2 : ℝ) ^ ((k : ℕ) : ℝ) := (Real.rpow_le_rpow_left_iff h2).mpr h1
    have hgleNat : g ≤ 2 ^ k := by
      have : ((g : ℕ) : ℝ) ≤ ((2 ^ k : ℕ) : ℝ) := by
        rw [Real.rpow_natCast] at hgle
        push_cast
        exact_mod_cast hgle
      exact_mod_cast this
    exact_mod_cast (Nat.le_pow_iff_clog_le (by norm_num)).mp hgleNat

/-- C7 (amended): the resolved grid length for a requested size `g ≥ 1` is
the smallest power of two that is at least `g` (with no flooring at 512),
and when no size is requested it is the smallest power of two at least
`max(nobs, 512)`; in both cases the integer resolution agrees with the
real-arithmetic computation `2**ceil(log2(_))` of the source. -/
theorem resolveGridsize_spec (g nobs : ℕ) (hg : 1 ≤ g) :
    isLeastPow2Ge (resolveGridsize (some g) nobs) g ∧
    isLeastPow2Ge (resolveGridsize none nobs) (max nobs 512) ∧
    ((resolveGridsize (some g) nobs : ℝ) = resolveGridsizeR (some (g : ℝ)) (nobs : ℝ)) ∧
    ((resolveGridsize none nobs : ℝ) = resolveGridsizeR none (nobs : ℝ)) := by
  have h2 : (1 : ℕ) < 2 := one_lt_two
  refine ⟨⟨⟨Nat.clog 2 g, rfl⟩, Nat.le_pow_clog h2 g, ?_⟩,
    ⟨⟨Nat.clog 2 (max nobs 512), rfl⟩, Nat.le_pow_clog h2 _, ?_⟩, ?_, ?_⟩
  · intro z hz
    exact Nat.pow_le_pow_right (by norm_num) ((Nat.le_pow_iff_clog_le h2).mp hz)
  · intro z hz
    exact Nat.pow_le_pow_right (by norm_num) ((Nat.le_pow_iff_clog_le h2).mp hz)
  · show ((2 ^ Nat.clog 2 g : ℕ) : ℝ) = (2 : ℝ) ^ ⌈Real.logb 2 (g : ℝ)⌉
    rw [ceil_logb_eq_clog g hg, zpow_natCast]
    push_cast
    ring
  · show ((2 ^ Nat.clog 2 (max nobs 512) : ℕ) : ℝ) =
      (2 : ℝ) ^ ⌈Real.logb 2 (max (nobs : ℝ) 512)⌉
    have hcast : (max (nobs : ℝ) 512) = ((max nobs 512 : ℕ) : ℝ) := by
      push_cast
      ring
    rw [hcast, ceil_logb_eq_clog (max nobs 512) (le_trans (by norm_num) (le_max_right nobs 512)),
      zpow_natCast]
    push_cast
    ring

/-- Witness for C7's theorem at the concrete request `g = 700`, `nobs = 100`. -/
theorem resolveGridsize_spec_witness :
    isLeastPow2Ge (resolveGridsize (some 700) 100) 700 ∧
    isLeastPow2Ge (resolveGridsize none 100) (max 100 512) ∧
    ((resolveGridsize (some 700) 100 : ℝ) = resolveGridsizeR (some (700 : ℝ)) (100 : ℝ)) ∧
    ((resolveGridsize none 100 : ℝ) = resolveGridsizeR none (100 : ℝ)) := by
  have h := resolveGridsize_spec 700 100 (by norm_num)
  have hc : ((700 : ℕ) : ℝ) = (700 : ℝ) := by norm_num
  have hn : ((100 : ℕ) : ℝ) = (100 : ℝ) := by norm_num
  rw [hc, hn] at h
  exact h

/-- Counterexample to C7 as stated: with the requested grid size `g = 4`
the resolved length is `4`, not the smallest power of two at least
`max(4, 512) = 512`. -/
theorem resolveGridsize_counterexample :
    ¬ isLeastPow2Ge (resolveGridsize (some 4) 100) (max 4 512) := by
  intro h
  have h4 : resolveGridsize (some 4) 100 ≤ 4 := by
    have hc : Nat.clog 2 4 ≤ 2 :=
      (Nat.le_pow_iff_clog_le (by norm_num)).mp (by norm_num)
    calc resolveGridsize (some 4) 100 = 2 ^ Nat.clog 2 4 := rfl
      _ ≤ 2 ^ 2 := Nat.pow_le_pow_right (by norm_num) hc
      _ = 4 := by norm_num
  have h512 : (512 : ℕ) ≤ resolveGridsize (some 4) 100 :=
    le_trans (le_max_right 4 512) h.2.1
  omega

/-- Indexing a map over a range through `getD`. -/
theorem getD_map_range {β : Type} [Inhabited β] (n : ℕ) (f : ℕ → β) (d : β)
    (j : ℕ) (hj : j < n) : ((List.range n).map f).getD j d = f j := by
  rw [List.getD_eq_getElem _ _ (by simpa using hj), List.getElem_map,
    List.getElem_range]

/-- Indexing an elementwise product through `getD`. -/
theorem getD_zipWith_mul (F X : List ℝ) (i : ℕ) (h1 : i < F.length)
    (h2 : i < X.length) :
    (List.zipWith (fun f x => f * x) F X).getD i 0 = F.getD i 0 * X.getD i 0 := by
  rw [List.getD_eq_getElem _ _ (by rw [List.length_zipWith]; exact lt_min h1 h2),
    List.getElem_zipWith, List.getD_eq_getElem _ _ h1, List.getD_eq_getElem _ _ h2]

/-- Indexing `l[1:-1]` (drop the first and last element) through `getD`. -/
theorem getD_drop_dropLast {β : Type} (F : List β) (d : β) (i : ℕ)
    (hi : i + 2 < F.length) :
    ((F.drop 1).dropLast).getD i d = F.getD (i + 1) d := by
  have hlen : ((F.drop 1).dropLast).length = F.length - 2 := by
    rw [List.length_dropLast, List.length_drop]
    omega
  have hib : i < ((F.drop 1).dropLast).length := by omega
  rw [List.getD_eq_getElem _ _ hib, List.getElem_dropLast, List.getElem_drop,
    List.getD_eq_getElem _ _ (by omega)]
  congr 1
  omega

/-- C3 (confirmed): `silverman_transform` multiplies entry `j ≤ M/2` by
`FAC[j] = exp(-j²·FAC1)/(1 - (1/3)·(jπ/M)²)` with `FAC1 = 2·(π·bw/RANGE)²`,
and entry `M/2 + k` (the imaginary part of bin `k`, for `1 ≤ k ≤ M/2-1`) by
the same factor `FAC[k]`, matching the packing `np.r_[FAC, FAC[1:-1]]`. -/
theorem silverman_transform_spec (X : List ℝ) (bw RANGE : ℝ)
    (hEven : Even X.length) (hbw : 0 < bw) (hRANGE : 0 < RANGE) :
    (∀ j : ℕ, j ≤ X.length / 2 →
      (silverman_transform X bw RANGE).getD j 0
        = silvermanFAC X.length bw RANGE j * X.getD j 0) ∧
    (∀ k : ℕ, 1 ≤ k → k ≤ X.length / 2 - 1 →
      (silverman_transform X bw RANGE).getD (X.length / 2 + k) 0
        = silvermanFAC X.length bw RANGE k * X.getD (X.length / 2 + k) 0) := by
  have hmod : X.length % 2 = 0 := Nat.even_iff.mp hEven
  rcases Nat.eq_zero_or_pos X.length with h0 | hpos
  · have hX : X = [] := List.eq_nil_of_length_eq_zero h0
    subst hX
    constructor
    · intro j hj
      simp only [List.length_nil] at hj ⊢
      simp [silverman_transform]
    · intro k hk1 hk2
      simp only [List.length_nil] at hk2
      omega
  · have hM2 : 2 ≤ X.length := by omega
    set M := X.length with hMdef
    set F : List ℝ := (List.range (M / 2 + 1)).map (silvermanFAC M bw RANGE) with hF
    have hFlen : F.length = M / 2 + 1 := by simp [hF]
    have hF2len : ((F.drop 1).dropLast).length = M / 2 - 1 := by
      rw [List.length_dropLast, List.length_drop, hFlen]
      omega
    have hLlen : (F ++ (F.drop 1).dropLast).length = M := by
      rw [List.length_append, hFlen, hF2len]
      omega
    have hunf : silverman_transform X bw RANGE
        = List.zipWith (fun f x => f * x) (F ++ (F.drop 1).dropLast) X := rfl
    constructor
    · intro j hj
      have hjX : j < M := by omega
      rw [hunf, getD_zipWith_mul _ _ _ (by omega) hjX, List.getD_append _ _ _ _ (by omega),
        hF, getD_map_range _ _ _ _ (by omega)]
    · intro k hk1 hk2
      have hiX : M / 2 + k < M := by omega
      rw [hunf, getD_zipWith_mul _ _ _ (by omega) hiX,
        List.getD_append_right _ _ _ _ (by omega), hFlen]
      have hidx : M / 2 + k - (M / 2 + 1) = k - 1 := by omega
      rw [hidx, getD_drop_dropLast _ _ _ (by omega)]
      have hk1' : k - 1 + 1 = k := by omega
      rw [hk1', hF, getD_map_range _ _ _ _ (by omega)]

/-- Witness for C3's theorem: the imaginary-part entry `M/2 + 1` of a
packed spectrum of length 4 is scaled by `FAC[1]`. -/
theorem silverman_transform_spec_witness :
    (silverman_transform [1, 2, 3, 4] 1 1).getD
        (([1, 2, 3, 4] : List ℝ).length / 2 + 1) 0
      = silvermanFAC ([1, 2, 3, 4] : List ℝ).length 1 1 1
        * ([1, 2, 3, 4] : List ℝ).getD (([1, 2, 3, 4] : List ℝ).length / 2 + 1) 0 :=
  (silverman_transform_spec [1, 2, 3, 4] 1 1
      (by rw [show ([1, 2, 3, 4] : List ℝ).length = 4 from rfl]; decide)
      one_pos one_pos).2 1 le_rfl
    (by rw [show ([1, 2, 3, 4] : List ℝ).length = 4 from rfl])

/-- `getD` on `np.zeros(M)` is zero at every index. -/
theorem getD_replicate_zero {α : Type} [Zero α] (M i : ℕ) :
    (List.replicate M (0 : α)).getD i 0 = 0 := by
  rcases lt_or_ge i M with h | h
  · rw [List.getD_eq_getElem _ _ (by simpa using h), List.getElem_replicate]
  · rw [List.getD_eq_default _ _ (by simpa using h)]

/-- `getD` at the updated index after `List.set`. -/
theorem getD_set_self {α : Type} (l : List α) (i : ℕ) (v d : α)
    (h : i < l.length) : (l.set i v).getD i d = v := by
  rw [List.getD_eq_getElem _ _ (by simpa using h), List.getElem_set, if_pos rfl]

/-- `getD` away from the updated index after `List.set`. -/
theorem getD_set_ne {α : Type} (l : List α) (i j : ℕ) (v d : α)
    (hne : i ≠ j) : (l.set i v).getD j d = l.getD j d := by
  rcases lt_or_ge j l.length with h | h
  · rw [List.getD_eq_getElem _ _ (by simpa using h), List.getElem_set, if_neg hne,
      List.getD_eq_getElem _ _ h]
  · rw [List.getD_eq_default _ _ (by simpa using h), List.getD_eq_default _ _ h]

/-- Adding `u` to one in-range entry of a list adds `u` to its sum. -/
theorem sum_set_getD_add {α : Type} [AddCommMonoid α] (l : List α) (i : ℕ)
    (u : α) (h : i < l.length) :
    (l.set i (l.getD i 0 + u)).sum = l.sum + u := by
  induction l generalizing i with
  | nil => simp at h
  | cons y ys ih =>
    cases i with
    | zero =>
      simp only [List.getD_cons_zero, List.set_cons_zero, List.sum_cons]
      exact add_right_comm y u ys.sum
    | succ n =>
      simp only [List.getD_cons_succ, List.set_cons_succ, List.sum_cons]
      rw [ih n (by simpa using h), ← add_assoc]

/-- The loop body of `linbin` on an interior observation
(`1 < li < M - 1`): both writes are in range and succeed. -/
theorem linbinStep_interior {α : Type} [LinearOrderedField α] [FloorRing α]
    (a b : α) (M : ℕ) (x : α) (g : List α)
    (h1 : 1 < linbinIdx a b M x) (h2 : linbinIdx a b M x < (M : ℤ) - 1) :
    linbinStep a b M 1 g x = Except.ok
      ((g.set (linbinIdx a b M x).toNat
          (g.getD (linbinIdx a b M x).toNat 0 + (1 - linbinRem a b M x))).set
        ((linbinIdx a b M x).toNat + 1)
        ((g.set (linbinIdx a b M x).toNat
            (g.getD (linbinIdx a b M x).toNat 0 + (1 - linbinRem a b M x))).getD
          ((linbinIdx a b M x).toNat + 1) 0 + linbinRem a b M x)) := by
  simp only [linbinIdx, linbinRem] at h1 h2 ⊢
  simp only [linbinStep]
  rw [if_pos ⟨h1, by omega⟩,
    if_pos (show pytrunc ((x - a) / ((b - a) / ((M : α) - 1))) + 1 < (M : ℤ) by omega)]
  simp only [Except.bind]
  rw [if_neg (by simp)]
  have ht : (pytrunc ((x - a) / ((b - a) / ((M : α) - 1))) + 1).toNat
      = (pytrunc ((x - a) / ((b - a) / ((M : α) - 1)))).toNat + 1 := by omega
  rw [ht]

/-- The loop body of `linbin` drops an observation with `li ≤ 1`. -/
theorem linbinStep_low {α : Type} [LinearOrderedField α] [FloorRing α]
    (a b : α) (M : ℕ) (x : α) (g : List α)
    (h1 : linbinIdx a b M x ≤ 1) :
    linbinStep a b M 1 g x = Except.ok g := by
  simp only [linbinIdx] at h1
  simp only [linbinStep]
  rw [if_neg (by omega : ¬(1 < pytrunc ((x - a) / ((b - a) / ((M : α) - 1))) ∧
    pytrunc ((x - a) / ((b - a) / ((M : α) - 1))) < (M : ℤ)))]
  simp only [Except.bind]
  rw [if_neg (by simp)]

/-- Folding the `linbin` loop over interior observations keeps the run
successful, preserves the length, and adds one unit of mass per
observation. -/
theorem linbin_fold_aux {α : Type} [LinearOrderedField α] [FloorRing α]
    (a b : α) (M : ℕ) (X : List α)
    (hX : ∀ x ∈ X, 1 < linbinIdx a b M x ∧ linbinIdx a b M x < (M : ℤ) - 1)
    (g : List α) (hg : g.length = M) :
    ∃ g2, X.foldl (fun acc x => acc.bind (fun gg => linbinStep a b M 1 gg x))
        (Except.ok g) = Except.ok g2 ∧ g2.length = M ∧
      g2.sum = g.sum + (X.length : α) := by
  induction X generalizing g with
  | nil => exact ⟨g, rfl, hg, by simp⟩
  | cons x xs ih =>
    obtain ⟨hx1, hx2⟩ := hX x (List.mem_cons_self x xs)
    have hiN : (linbinIdx a b M x).toNat + 1 < M := by omega
    have hstep := linbinStep_interior a b M x g hx1 hx2
    set g1 := ((g.set (linbinIdx a b M x).toNat
        (g.getD (linbinIdx a b M x).toNat 0 + (1 - linbinRem a b M x))).set
      ((linbinIdx a b M x).toNat + 1)
      ((g.set (linbinIdx a b M x).toNat
          (g.getD (linbinIdx a b M x).toNat 0 + (1 - linbinRem a b M x))).getD
        ((linbinIdx a b M x).toNat + 1) 0 + linbinRem a b M x)) with hg1
    have hg1len : g1.length = M := by
      simp only [hg1, List.length_set]
      exact hg
    have hg1sum : g1.sum = g.sum + 1 := by
      rw [hg1, sum_set_getD_add _ _ _ (by simp [List.length_set]; omega),
        sum_set_getD_add _ _ _ (by omega)]
      ring
    obtain ⟨g2, hfold, hlen2, hsum2⟩ :=
      ih (fun y hy => hX y (List.mem_cons_of_mem x hy)) g1 hg1len
    refine ⟨g2, ?_, hlen2, ?_⟩
    · simp only [List.foldl_cons]
      rw [show (Except.ok g).bind (fun gg => linbinStep a b M 1 gg x)
          = linbinStep a b M 1 g x from rfl, hstep]
      exact hfold
    · rw [hsum2, hg1sum, List.length_cons]
      push_cast
      ring

/-- C4 (amended): an observation with `1 < li < M-1` contributes `1-rem` to
bin `li` and `rem` to bin `li+1`; an observation with `li ≤ 1` is silently
dropped (no error, no contribution); and a sample whose observations all
have `1 < li < M-1` bins successfully with total mass equal to the sample
size.  (The claim's original band `1 < li < M` is cut to `1 < li < M-1`:
at `li = M-1` the write to bin `li+1 = M` is out of bounds and `linbin`
fails instead of contributing — see the counterexample.) -/
theorem linbin_spec {α : Type} [LinearOrderedField α] [FloorRing α]
    (a b : α) (M : ℕ) :
    (∀ x : α, 1 < linbinIdx a b M x → linbinIdx a b M x < (M : ℤ) - 1 →
      ∃ g, linbin [x] a b M 1 = Except.ok g ∧
        g.getD (linbinIdx a b M x).toNat 0 = 1 - linbinRem a b M x ∧
        g.getD ((linbinIdx a b M x).toNat + 1) 0 = linbinRem a b M x ∧
        g.sum = 1) ∧
    (∀ x : α, linbinIdx a b M x ≤ 1 →
      linbin [x] a b M 1 = Except.ok (List.replicate M 0)) ∧
    (∀ X : List α,
      (∀ x ∈ X, 1 < linbinIdx a b M x ∧ linbinIdx a b M x < (M : ℤ) - 1) →
      ∃ g, linbin X a b M 1 = Except.ok g ∧ g.sum = (X.length : α)) := by
  have hsingle : ∀ x : α, linbin [x] a b M 1
      = linbinStep a b M 1 (List.replicate M 0) x := fun x => rfl
  refine ⟨?_, ?_, ?_⟩
  · intro x h1 h2
    have hiN : (linbinIdx a b M x).toNat + 1 < M := by omega
    rw [hsingle x, linbinStep_interior a b M x _ h1 h2]
    refine ⟨_, rfl, ?_, ?_, ?_⟩
    · rw [getD_set_ne _ _ _ _ _ (by omega),
        getD_set_self _ _ _ _ (by simp; omega), getD_replicate_zero, zero_add]
    · rw [getD_set_self _ _ _ _ (by simp; omega),
        getD_set_ne _ _ _ _ _ (by omega), getD_replicate_zero, zero_add]
    · rw [sum_set_getD_add _ _ _ (by simp [List.length_set]; omega),
        sum_set_getD_add _ _ _ (by simp; omega), List.sum_replicate, smul_zero]
      ring
  · intro x h1
    rw [hsingle x, linbinStep_low a b M x _ h1]
  · intro X hX
    obtain ⟨g, hfold, _, hsum⟩ :=
      linbin_fold_aux a b M X hX (List.replicate M 0) (by simp)
    refine ⟨g, hfold, ?_⟩
    rw [hsum, List.sum_replicate, smul_zero, zero_add]

/-- Counterexample to C4 as stated: the observation `10/3` against the grid
`a = 0`, `b = 3`, `M = 4` has `li = 3`, inside the claim's band
`1 < li < M`, yet `linbin` raises an IndexError (the write to bin
`li+1 = 4` is out of bounds) instead of contributing mass. -/
theorem linbin_spec_counterexample :
    1 < linbinIdx (α := ℚ) 0 3 4 (10 / 3) ∧
    linbinIdx (α := ℚ) 0 3 4 (10 / 3) < ((4 : ℕ) : ℤ) ∧
    linbin (α := ℚ) [10 / 3] 0 3 4 1 =
      Except.error "IndexError: index out of bounds for axis 0" := by
  refine ⟨by norm_num [linbinIdx, pytrunc], by norm_num [linbinIdx, pytrunc], ?_⟩
  simp only [linbin, List.foldl_cons, List.foldl_nil, linbinStep, Except.bind]
  norm_num [pytrunc]

/-- Witness for C4's theorem: the observation `5/2` on the grid `a = 0`,
`b = 7`, `M = 8` has `li = 2`, `rem = 1/2`, and contributes `1/2` to bins
2 and 3. -/
theorem linbin_spec_witness :
    ∃ g : List ℚ, linbin [(5 : ℚ) / 2] 0 7 8 1 = Except.ok g ∧
      g.getD (linbinIdx (α := ℚ) 0 7 8 ((5 : ℚ) / 2)).toNat 0
        = 1 - linbinRem (α := ℚ) 0 7 8 ((5 : ℚ) / 2) ∧
      g.getD ((linbinIdx (α := ℚ) 0 7 8 ((5 : ℚ) / 2)).toNat + 1) 0
        = linbinRem (α := ℚ) 0 7 8 ((5 : ℚ) / 2) ∧
      g.sum = 1 :=
  (linbin_spec (α := ℚ) 0 7 8).1 ((5 : ℚ) / 2)
    (by norm_num [linbinIdx, pytrunc]) (by norm_num [linbinIdx, pytrunc])

/-- C5 (code_bug): at the failing inputs, an observation just beyond the
upper bound (`x = 7/2 > b = 3`, floor index `M-1`) raises an IndexError
instead of being dropped silently, and with truncation disabled an
observation far beyond the bound raises a NameError (`gncts` is a typo for
`gcnts`, and `gcnts[M]` would itself be out of bounds) instead of adding
its mass to the last bin.  An observation with floor index `≥ M` under the
default truncation is indeed dropped silently (third conjunct). -/
theorem linbin_upper_boundary_bug :
    linbin (α := ℚ) [7 / 2] 0 3 4 1 =
      Except.error "IndexError: index out of bounds for axis 0" ∧
    linbin (α := ℚ) [10] 0 3 4 0 =
      Except.error "NameError: name gncts is not defined" ∧
    linbin (α := ℚ) [10] 0 3 4 1 = Except.ok (List.replicate 4 0) := by
  refine ⟨?_, ?_, ?_⟩ <;>
  · simp only [linbin, List.foldl_cons, List.foldl_nil, linbinStep, Except.bind,
      List.replicate]
    norm_num [pytrunc]

/-- C6 (confirmed): `select_bandwidth` returns the scott (resp. silverman)
rule value exactly when the name matches case-insensitively and the kernel
is "gauss"; any other name is a ValueError, a recognized name with a
non-"gauss" kernel is a ValueError, and an unrecognized name given to
`kdensityfft` as its bandwidth propagates that ValueError uncaught. -/
theorem select_bandwidth_spec (bf : BandwidthFuncs) (X : List ℝ)
    (name kernel : String) :
    (strLower name = "scott" → kernel = "gauss" →
      select_bandwidth bf X name kernel = Except.ok (bf.scott X)) ∧
    (strLower name = "silverman" → kernel = "gauss" →
      select_bandwidth bf X name kernel = Except.ok (bf.silverman X)) ∧
    (¬(strLower name = "scott" ∨ strLower name = "silverman") →
      select_bandwidth bf X name kernel
        = Except.error ("Bandwidth " ++ strLower name ++ " not understood")) ∧
    ((strLower name = "scott" ∨ strLower name = "silverman") → kernel ≠ "gauss" →
      select_bandwidth bf X name kernel
        = Except.error "Only Gaussian Kernels are currently supported") ∧
    (∀ (Y : List FloatV) (adjust : ℝ) (gs : Option ℕ) (clip : FloatV × FloatV)
        (cut : ℝ) (rg : Bool),
      ¬(strLower name = "scott" ∨ strLower name = "silverman") →
      kdensityfft bf Y kernel (BwSpec.name name) adjust gs clip cut rg
        = Except.error ("Bandwidth " ++ strLower name ++ " not understood")) := by
  refine ⟨?_, ?_, ?_, ?_, ?_⟩
  · intro hs hk
    simp [select_bandwidth, hs, hk]
  · intro hs hk
    simp [select_bandwidth, hs, hk]
  · intro hns
    simp only [select_bandwidth]
    rw [if_pos hns]
  · intro hrec hk
    rcases hrec with h | h <;> simp [select_bandwidth, h, hk]
  · intro Y adjust gs clip cut rg hns
    show kdensityfftCore bf (clipList clip.1 clip.2 Y) kernel (BwSpec.name name)
        adjust gs cut rg = _
    simp only [kdensityfftCore]
    rw [show select_bandwidth bf (clipList clip.1 clip.2 Y) name kernel
        = Except.error ("Bandwidth " ++ strLower name ++ " not understood") from by
      simp only [select_bandwidth]; rw [if_pos hns]]
    rfl

/-- Witness for C6's theorem: "SCOTT" resolves case-insensitively to the
scott rule, "boxcar" is rejected, and the rejection escapes
`kdensityfft`. -/
theorem select_bandwidth_spec_witness :
    select_bandwidth ⟨fun _ => 1, fun _ => 2⟩ [] "SCOTT" "gauss" = Except.ok 1 ∧
    select_bandwidth ⟨fun _ => 1, fun _ => 2⟩ [] "boxcar" "gauss"
      = Except.error "Bandwidth boxcar not understood" ∧
    kdensityfft ⟨fun _ => 1, fun _ => 2⟩ [] "gauss" (BwSpec.name "boxcar") 1 none
        (FloatV.negInf, FloatV.posInf) 3 true
      = Except.error "Bandwidth boxcar not understood" := by
  refine ⟨?_, ?_, ?_⟩
  · exact (select_bandwidth_spec ⟨fun _ => 1, fun _ => 2⟩ [] "SCOTT" "gauss").1
      (by decide) rfl
  · exact (select_bandwidth_spec ⟨fun _ => 1, fun _ => 2⟩ [] "boxcar" "gauss").2.2.1
      (by decide)
  · exact (select_bandwidth_spec ⟨fun _ => 1, fun _ => 2⟩ [] "boxcar" "gauss").2.2.2.2
      [] 1 none (FloatV.negInf, FloatV.posInf) 3 true (by decide)

/-- With the default bounds `(-inf, inf)`, clipping keeps exactly the
finite observations, in order. -/
theorem clipList_default (X : List FloatV) :
    clipList FloatV.negInf FloatV.posInf X = finiteList X := by
  induction X with
  | nil => rfl
  | cons x xs ih =>
    cases x <;>
      simp only [clipList, finiteList, fltLt, FloatV.finitePart, List.filter_cons,
        Bool.and_true, Bool.and_false, Bool.true_and, Bool.false_and, if_true,
        if_false, List.filterMap_cons] <;>
      simpa [clipList, finiteList] using ih

/-- The number of finite payloads equals the number of finite entries. -/
theorem finiteList_length (X : List FloatV) :
    (finiteList X).length = (X.filter FloatV.isFinite).length := by
  induction X with
  | nil => rfl
  | cons x xs ih =>
    simp only [finiteList] at ih ⊢
    cases x <;>
      simp [FloatV.finitePart, FloatV.isFinite, List.filter_cons,
        List.filterMap_cons, ih]

/-- Dropping the non-finite entries first does not change the finite
payloads. -/
theorem finiteList_filter (X : List FloatV) :
    finiteList (X.filter FloatV.isFinite) = finiteList X := by
  induction X with
  | nil => rfl
  | cons x xs ih =>
    simp only [finiteList] at ih ⊢
    cases x <;>
      simp [FloatV.finitePart, FloatV.isFinite, List.filter_cons,
        List.filterMap_cons, ih]

/-- C10 (confirmed): with the default clip bounds `(-inf, inf)` the strict
comparisons exclude every `nan` and every infinite observation, the
retained sample (whose length is the `nobs` used downstream) is exactly
the list of finite observations, and both estimators compute the same
result as on the pre-filtered finite sample. -/
theorem clip_nonfinite_spec (X : List FloatV) (bf : BandwidthFuncs)
    (kernel : String) (bwf : BwSpec) (bwd : Option ℝ) (adjust : ℝ)
    (gs : Option ℕ) (cut : ℝ) (rg : Bool) :
    clipList FloatV.negInf FloatV.posInf X = finiteList X ∧
    (clipList FloatV.negInf FloatV.posInf X).length
      = (X.filter FloatV.isFinite).length ∧
    kdensityfft bf X kernel bwf adjust gs (FloatV.negInf, FloatV.posInf) cut rg
      = kdensityfft bf (X.filter FloatV.isFinite) kernel bwf adjust gs
          (FloatV.negInf, FloatV.posInf) cut rg ∧
    kdensity X kernel bwd gs (FloatV.negInf, FloatV.posInf) cut rg
      = kdensity (X.filter FloatV.isFinite) kernel bwd gs
          (FloatV.negInf, FloatV.posInf) cut rg := by
  have hclip : clipList FloatV.negInf FloatV.posInf (X.filter FloatV.isFinite)
      = clipList FloatV.negInf FloatV.posInf X := by
    rw [clipList_default, clipList_default, finiteList_filter]
  refine ⟨clipList_default X, ?_, ?_, ?_⟩
  · rw [clipList_default X, finiteList_length]
  · show kdensityfftCore bf (clipList FloatV.negInf FloatV.posInf X) kernel bwf
        adjust gs cut rg = kdensityfftCore bf
        (clipList FloatV.negInf FloatV.posInf (X.filter FloatV.isFinite)) kernel
        bwf adjust gs cut rg
    rw [hclip]
  · show kdensityCore (clipList FloatV.negInf FloatV.posInf X) kernel bwd gs cut rg
      = kdensityCore (clipList FloatV.negInf FloatV.posInf (X.filter FloatV.isFinite))
          kernel bwd gs cut rg
    rw [hclip]

/-- C9 (confirmed): in `kdensity`'s contribution matrix for kernel "epa",
the entry for observation `j` and grid point `i` at scaled distance
`u = (x - grid_i)/bw` is exactly zero when `|u| > sqrt(5)` and equals
`3/(4*sqrt(5)) * (1 - u^2/5)` when `|u| ≤ sqrt(5)` (before the final
`1/bw` scaling of the returned contributions). -/
theorem kdensity_epa_spec (Xc grid : List ℝ) (h : ℝ) (i j : ℕ)
    (hi : i < grid.length) (hj : j < Xc.length) :
    ((kdContrib "epa" Xc grid h).getD i []).getD j 0
      = if |(Xc.getD j 0 - grid.getD i 0) / h| ≤ Real.sqrt 5 then
          3 / (4 * Real.sqrt 5) * (1 - ((Xc.getD j 0 - grid.getD i 0) / h) ^ 2 / 5)
        else 0 := by
  have hrow : (kdContrib "epa" Xc grid h).getD i []
      = Xc.map (fun x => kval "epa" ((x - grid[i]) / h)) := by
    simp only [kdContrib]
    rw [List.getD_eq_getElem _ _ (by simpa using hi), List.getElem_map]
  have hL : ((kdContrib "epa" Xc grid h).getD i []).getD j 0
      = kval "epa" ((Xc.getD j 0 - grid.getD i 0) / h) := by
    rw [hrow, List.getD_eq_getElem _ _ (by simpa using hj), List.getElem_map,
      List.getD_eq_getElem _ _ hi, List.getD_eq_getElem _ _ hj]
  rw [hL]
  simp only [kval]
  rw [if_pos (show strLower "epa" = "epa" from rfl)]
  split_ifs with hcase
  · rw [show (0.2 : ℝ) = 1 / 5 by norm_num]
    ring
  · ring

/-- Witness for C9's theorem: at `x = 10`, grid point `0`, `bw = 1` the
scaled distance is beyond the support and the contribution is zero. -/
theorem kdensity_epa_spec_witness :
    ((kdContrib "epa" [10] [0] 1).getD 0 []).getD 0 0
      = if |(([10] : List ℝ).getD 0 0 - ([0] : List ℝ).getD 0 0) / 1| ≤ Real.sqrt 5
          then 3 / (4 * Real.sqrt 5) *
            (1 - ((([10] : List ℝ).getD 0 0 - ([0] : List ℝ).getD 0 0) / 1) ^ 2 / 5)
        else 0 :=
  kdensity_epa_spec [10] [0] 1 0 0 (by norm_num) (by norm_num)

/-- The FFT pipeline of `kdensityfft` for a numeric bandwidth, stated on the
already clipped sample: the result is exactly
`revrt (silverman_transform (forrt (linbin(...)/(delta*nobs))) bw RANGE)`
with the grid attached when requested. -/
theorem kdensityfftCore_num (bf : BandwidthFuncs) (Xc : List ℝ)
    (kernel : String) (c adjust : ℝ) (gs : Option ℕ) (cut : ℝ) (rg : Bool)
    (g : List ℝ) (hne : Xc.isEmpty = false)
    (hlin : linbin Xc (listMin Xc - cut * (c * adjust))
        (listMax Xc + cut * (c * adjust)) (resolveGridsize gs Xc.length) 1
      = Except.ok g) :
    kdensityfftCore bf Xc kernel (BwSpec.num c) adjust gs cut rg
      = Except.ok
          (revrt (silverman_transform
              (forrt (g.map (fun w => w /
                ((listMax Xc + cut * (c * adjust) - (listMin Xc - cut * (c * adjust)))
                  / ((resolveGridsize gs Xc.length : ℝ) - 1) * (Xc.length : ℝ)))))
              (c * adjust)
              (listMax Xc + cut * (c * adjust) - (listMin Xc - cut * (c * adjust)))),
            if rg then
              some (linspace (listMin Xc - cut * (c * adjust))
                (listMax Xc + cut * (c * adjust)) (resolveGridsize gs Xc.length))
            else none) := by
  simp only [kdensityfftCore, Except.bind]
  rw [hne]
  simp only [Bool.false_eq_true, if_false]
  rw [hlin]

/-- C2 (confirmed): for a numeric bandwidth `c` (times `adjust`), a
non-empty clipped sample and a successful binning, `kdensityfft` returns
exactly `revrt (silverman_transform (forrt (linbin(X,a,b,M)/(delta*nobs)))
bw' (b-a))` with `bw' = c*adjust`, `a = min - cut*bw'`, `b = max + cut*bw'`,
`M` the resolved power-of-two grid size, `delta = (b-a)/(M-1)`, and `nobs`
the clipped count, together with the grid `linspace a b M` when `retgrid`
is set. -/
theorem kdensityfft_pipeline (bf : BandwidthFuncs) (X : List FloatV)
    (kernel : String) (c adjust : ℝ) (gs : Option ℕ) (clip : FloatV × FloatV)
    (cut : ℝ) (Xc : List ℝ) (M : ℕ) (a b delta : ℝ) (g : List ℝ)
    (hXc : clipList clip.1 clip.2 X = Xc)
    (hne : Xc.isEmpty = false)
    (hM : M = resolveGridsize gs Xc.length)
    (ha : a = listMin Xc - cut * (c * adjust))
    (hb : b = listMax Xc + cut * (c * adjust))
    (hdelta : delta = (b - a) / ((M : ℝ) - 1))
    (hlin : linbin Xc a b M 1 = Except.ok g) :
    kdensityfft bf X kernel (BwSpec.num c) adjust gs clip cut true
      = Except.ok
          (revrt (silverman_transform
              (forrt (g.map (fun w => w / (delta * (Xc.length : ℝ)))))
              (c * adjust) (b - a)),
            some (linspace a b M)) := by
  subst hdelta ha hb hM hXc
  exact kdensityfftCore_num bf _ kernel c adjust gs cut true g hne hlin

/-- Witness for C2's theorem: the one-point sample `[0]` with `bw = 1`,
`adjust = 1`, `cut = 3`, requested grid size 2, so `a = -3`, `b = 3`,
`M = 2`, `delta = 6`, and the single observation is boundary-dropped by the
binning. -/
theorem kdensityfft_pipeline_witness :
    kdensityfft ⟨fun _ => 1, fun _ => 1⟩ [FloatV.val 0] "gauss" (BwSpec.num 1) 1
        (some 2) (FloatV.negInf, FloatV.posInf) 3 true
      = Except.ok
          (revrt (silverman_transform
              (forrt ((List.replicate 2 (0 : ℝ)).map
                (fun w => w / (6 * (([(0 : ℝ)] : List ℝ).length : ℝ)))))
              (1 * 1) (3 - -3)),
            some (linspace (-3) 3 2)) := by
  have hM : (2 : ℕ) = resolveGridsize (some 2) ([(0 : ℝ)] : List ℝ).length := by
    rw [show resolveGridsize (some 2) ([(0 : ℝ)] : List ℝ).length
        = 2 ^ Nat.clog 2 2 from rfl, Nat.clog_eq_one le_rfl le_rfl]
    norm_num
  have ha : (-3 : ℝ) = listMin [(0 : ℝ)] - 3 * (1 * 1) := by
    rw [show listMin [(0 : ℝ)] = 0 from rfl]
    norm_num
  have hb : (3 : ℝ) = listMax [(0 : ℝ)] + 3 * (1 * 1) := by
    rw [show listMax [(0 : ℝ)] = 0 from rfl]
    norm_num
  have hdelta : (6 : ℝ) = ((3 : ℝ) - -3) / (((2 : ℕ) : ℝ) - 1) := by
    norm_num
  have hlin : linbin [(0 : ℝ)] (-3) 3 2 1 = Except.ok (List.replicate 2 0) := by
    simp only [linbin, List.foldl_cons, List.foldl_nil, linbinStep, Except.bind]
    norm_num [pytrunc]
  exact kdensityfft_pipeline ⟨fun _ => 1, fun _ => 1⟩ [FloatV.val 0] "gauss" 1 1
    (some 2) (FloatV.negInf, FloatV.posInf) 3 [(0 : ℝ)] 2 (-3) 3 6
    (List.replicate 2 0) rfl rfl hM ha hb hdelta hlin

/-- C8 (amended): with a numeric bandwidth the kernel argument of
`kdensityfft` is ignored entirely: the call with any kernel returns exactly
the "gauss" result, and (for a non-empty clipped sample with successful
binning) completes without error — the unsupported kernel is silently
mis-computed, with the Gaussian frequency-domain smoothing applied
regardless, not skipped.  (The claim's "the packed spectrum is passed
through the smoothing step unchanged" is refuted by the counterexample:
`silverman_transform` is applied unconditionally and is not the
identity.) -/
theorem kdensityfft_kernel_ignored (bf : BandwidthFuncs) (X : List FloatV)
    (kernel : String) (c adjust : ℝ) (gs : Option ℕ) (clip : FloatV × FloatV)
    (cut : ℝ) (rg : Bool) (g : List ℝ)
    (hne : (clipList clip.1 clip.2 X).isEmpty = false)
    (hlin : linbin (clipList clip.1 clip.2 X)
        (listMin (clipList clip.1 clip.2 X) - cut * (c * adjust))
        (listMax (clipList clip.1 clip.2 X) + cut * (c * adjust))
        (resolveGridsize gs (clipList clip.1 clip.2 X).length) 1
      = Except.ok g) :
    kdensityfft bf X kernel (BwSpec.num c) adjust gs clip cut rg
      = kdensityfft bf X "gauss" (BwSpec.num c) adjust gs clip cut rg ∧
    ∃ v, kdensityfft bf X kernel (BwSpec.num c) adjust gs clip cut rg
      = Except.ok v :=
  ⟨rfl, ⟨_, kdensityfftCore_num bf (clipList clip.1 clip.2 X) kernel c adjust
    gs cut rg g hne hlin⟩⟩

/-- Witness for C8's theorem: the "epa" kernel with numeric bandwidth 1 on
the one-point sample `[0]` returns the "gauss" result and succeeds. -/
theorem kdensityfft_kernel_ignored_witness :
    kdensityfft ⟨fun _ => 2, fun _ => 2⟩ [FloatV.val 0] "epa" (BwSpec.num 1) 1
        (some 2) (FloatV.negInf, FloatV.posInf) 3 false
      = kdensityfft ⟨fun _ => 2, fun _ => 2⟩ [FloatV.val 0] "gauss" (BwSpec.num 1)
        1 (some 2) (FloatV.negInf, FloatV.posInf) 3 false ∧
    ∃ v, kdensityfft ⟨fun _ => 2, fun _ => 2⟩ [FloatV.val 0] "epa" (BwSpec.num 1)
        1 (some 2) (FloatV.negInf, FloatV.posInf) 3 false = Except.ok v := by
  have hlin : linbin (clipList (FloatV.negInf, FloatV.posInf).1
        (FloatV.negInf, FloatV.posInf).2 [FloatV.val 0])
      (listMin (clipList (FloatV.negInf, FloatV.posInf).1
          (FloatV.negInf, FloatV.posInf).2 [FloatV.val 0]) - 3 * (1 * 1))
      (listMax (clipList (FloatV.negInf, FloatV.posInf).1
          (FloatV.negInf, FloatV.posInf).2 [FloatV.val 0]) + 3 * (1 * 1))
      (resolveGridsize (some 2) (clipList (FloatV.negInf, FloatV.posInf).1
          (FloatV.negInf, FloatV.posInf).2 [FloatV.val 0]).length) 1
      = Except.ok (List.replicate 2 0) := by
    rw [show clipList (FloatV.negInf, FloatV.posInf).1
        (FloatV.negInf, FloatV.posInf).2 [FloatV.val 0] = [(0 : ℝ)] from rfl,
      show listMin [(0 : ℝ)] = 0 from rfl, show listMax [(0 : ℝ)] = 0 from rfl,
      show resolveGridsize (some 2) ([(0 : ℝ)] : List ℝ).length
        = 2 ^ Nat.clog 2 2 from rfl, Nat.clog_eq_one le_rfl le_rfl]
    simp only [linbin, List.foldl_cons, List.foldl_nil, linbinStep, Except.bind,
      pow_one]
    norm_num [pytrunc]
  exact kdensityfft_kernel_ignored ⟨fun _ => 2, fun _ => 2⟩ [FloatV.val 0] "epa"
    1 1 (some 2) (FloatV.negInf, FloatV.posInf) 3 false (List.replicate 2 0)
    rfl hlin

/-- Counterexample to C8 as stated: the smoothing step applied by
`kdensityfft` is `silverman_transform` for every kernel, and it is not a
pass-through: on the packed spectrum `[1, 1]` with `bw = RANGE = 1` the
entry at index 1 is damped by `exp(-2π²)/(1 - π²/12) < 1`. -/
theorem silverman_transform_noop_counterexample :
    silverman_transform [1, 1] 1 1 ≠ [1, 1] := by
  have hval : silverman_transform [1, 1] 1 1
      = [silvermanFAC 2 1 1 0 * 1, silvermanFAC 2 1 1 1 * 1] := rfl
  intro h
  rw [hval] at h
  have h1 : silvermanFAC 2 1 1 1 * 1 = 1 := by
    have := congrArg (fun l : List ℝ => l.getD 1 0) h
    simpa using this
  rw [mul_one] at h1
  have hFAC : silvermanFAC 2 1 1 1
      = Real.exp (-(2 * Real.pi ^ 2)) / (1 - Real.pi ^ 2 / 12) := by
    simp only [silvermanFAC]
    push_cast
    ring_nf
  have hBpos : (0 : ℝ) < 1 - Real.pi ^ 2 / 12 := by
    nlinarith [Real.pi_lt_315, Real.pi_gt_three]
  have hlt : Real.exp (-(2 * Real.pi ^ 2)) < 1 - Real.pi ^ 2 / 12 := by
    have h18 : Real.exp (-(2 * Real.pi ^ 2)) ≤ Real.exp (-18) :=
      Real.exp_le_exp.mpr (by nlinarith [Real.pi_gt_three])
    have h19 : (19 : ℝ) ≤ Real.exp 18 := by
      have := Real.add_one_le_exp (18 : ℝ)
      linarith
    have hinv : Real.exp (-18) ≤ (19 : ℝ)⁻¹ := by
      rw [Real.exp_neg]
      exact inv_le_inv_of_le (by norm_num) h19
    have hfrac : (19 : ℝ)⁻¹ < 1 - Real.pi ^ 2 / 12 := by
      nlinarith [Real.pi_lt_315, Real.pi_gt_three]
    linarith
  have hne1 : silvermanFAC 2 1 1 1 < 1 := by
    rw [hFAC]
    exact (div_lt_one hBpos).mpr hlt
  rw [h1] at hne1
  exact lt_irrefl 1 hne1

/-- Indexing a `zipWith` through `getD`, in range of both lists. -/
theorem getD_zipWith {α β γ : Type} (f : α → β → γ) (l1 : List α)
    (l2 : List β) (d1 : α) (d2 : β) (d : γ) (i : ℕ) (h1 : i < l1.length)
    (h2 : i < l2.length) :
    (List.zipWith f l1 l2).getD i d = f (l1.getD i d1) (l2.getD i d2) := by
  rw [List.getD_eq_getElem _ _ (by rw [List.length_zipWith]; exact lt_min h1 h2),
    List.getElem_zipWith, List.getD_eq_getElem _ _ h1, List.getD_eq_getElem _ _ h2]

/-- Indexing a `drop` through `getD`, in range. -/
theorem getD_drop_add {α : Type} (l : List α) (d : α) (n i : ℕ)
    (h : n + i < l.length) :
    (l.drop n).getD i d = l.getD (n + i) d := by
  rw [List.getD_eq_getElem _ _ (by rw [List.length_drop]; omega),
    List.getElem_drop, List.getD_eq_getElem _ _ h]

/-- Real part of a division by a natural number. -/
theorem div_natCast_re (z : ℂ) (n : ℕ) : (z / (n : ℂ)).re = z.re / (n : ℝ) := by
  rw [show ((n : ℕ) : ℂ) = (((n : ℕ) : ℝ) : ℂ) from by push_cast; rfl,
    div_eq_mul_inv, ← Complex.ofReal_inv, div_eq_mul_inv]
  simp [Complex.mul_re]

/-- Imaginary part of a division by a natural number. -/
theorem div_natCast_im (z : ℂ) (n : ℕ) : (z / (n : ℂ)).im = z.im / (n : ℝ) := by
  rw [show ((n : ℕ) : ℂ) = (((n : ℕ) : ℝ) : ℂ) from by push_cast; rfl,
    div_eq_mul_inv, ← Complex.ofReal_inv, div_eq_mul_inv]
  simp [Complex.mul_im]

/-- The discrete sum of the unit roots `exp(2πi·k·d/m)` over `k < m`
vanishes unless `m ∣ d`, in which case it is `m`. -/
theorem sum_exp_unit (m : ℕ) (hm : 0 < m) (d : ℤ) :
    ∑ k ∈ Finset.range m,
        Complex.exp (2 * Real.pi * Complex.I * (k : ℂ) * (d : ℂ) / (m : ℂ))
      = if (m : ℤ) ∣ d then (m : ℂ) else 0 := by
  have hm0 : ((m : ℕ) : ℂ) ≠ 0 := Nat.cast_ne_zero.mpr hm.ne'
  have hterm : ∀ k : ℕ,
      Complex.exp (2 * Real.pi * Complex.I * (k : ℂ) * (d : ℂ) / (m : ℂ))
        = Complex.exp (2 * Real.pi * Complex.I * (d : ℂ) / (m : ℂ)) ^ k := by
    intro k
    rw [← Complex.exp_nat_mul]
    congr 1
    ring
  rw [Finset.sum_congr rfl (fun k _ => hterm k)]
  by_cases hdvd : (m : ℤ) ∣ d
  · obtain ⟨e, he⟩ := hdvd
    have hω1 : Complex.exp (2 * Real.pi * Complex.I * (d : ℂ) / (m : ℂ)) = 1 := by
      have harg : 2 * (Real.pi : ℂ) * Complex.I * (d : ℂ) / (m : ℂ)
          = (e : ℂ) * (2 * (Real.pi : ℂ) * Complex.I) := by
        rw [he]
        push_cast
        field_simp
        ring
      rw [harg]
      exact Complex.exp_int_mul_two_pi_mul_I e
    rw [if_pos ⟨e, he⟩]
    simp [hω1, Finset.card_range]
  · have hωm : Complex.exp (2 * Real.pi * Complex.I * (d : ℂ) / (m : ℂ)) ^ m = 1 := by
      rw [← Complex.exp_nat_mul]
      have harg : (m : ℂ) * (2 * (Real.pi : ℂ) * Complex.I * (d : ℂ) / (m : ℂ))
          = (d : ℂ) * (2 * (Real.pi : ℂ) * Complex.I) := by
        field_simp
        ring
      rw [harg]
      exact Complex.exp_int_mul_two_pi_mul_I d
    have hω1 : Complex.exp (2 * Real.pi * Complex.I * (d : ℂ) / (m : ℂ)) ≠ 1 := by
      intro h1
      obtain ⟨n, hn⟩ := Complex.exp_eq_one_iff.mp h1
      have h2 : (2 * (Real.pi : ℂ) * Complex.I) ≠ 0 := by
        simp [Real.pi_ne_zero, Complex.I_ne_zero, Complex.ofReal_ne_zero]
      have key : (2 * (Real.pi : ℂ) * Complex.I) * (d : ℂ)
          = (2 * (Real.pi : ℂ) * Complex.I) * ((n : ℂ) * (m : ℂ)) := by
        field_simp at hn
        linear_combination hn
      have hd : (d : ℂ) = (n : ℂ) * (m : ℂ) := mul_left_cancel₀ h2 key
      have hdz : d = n * (m : ℤ) := by exact_mod_cast hd
      exact hdvd ⟨n, by rw [hdz]; ring⟩
    rw [if_neg hdvd, geom_sum_eq hω1, hωm]
    simp

/-- Inversion of the discrete Fourier sum: summing the `rfft` bins against
the inverse twiddle factors recovers `m` times the input entry. -/
theorem rfftBins_inversion (X : List ℝ) (m : ℕ) (hm : 0 < m) (j : ℕ)
    (hj : j < m) :
    ∑ k ∈ Finset.range m, rfftBins X m k
        * Complex.exp (2 * Real.pi * Complex.I * (j : ℂ) * (k : ℂ) / (m : ℂ))
      = (m : ℂ) * ((X.getD j 0 : ℝ) : ℂ) := by
  have hstep1 : ∀ k ∈ Finset.range m,
      rfftBins X m k
          * Complex.exp (2 * Real.pi * Complex.I * (j : ℂ) * (k : ℂ) / (m : ℂ))
        = ∑ l ∈ Finset.range m, ((X.getD l 0 : ℝ) : ℂ)
            * Complex.exp (2 * Real.pi * Complex.I * (k : ℂ)
                * ((((j : ℤ) - (l : ℤ)) : ℤ) : ℂ) / (m : ℂ)) := by
    intro k _
    rw [rfftBins, Finset.sum_mul]
    apply Finset.sum_congr rfl
    intro l _
    rw [mul_assoc, ← Complex.exp_add]
    congr 2
    push_cast
    ring
  rw [Finset.sum_congr rfl hstep1, Finset.sum_comm]
  have hstep2 : ∀ l ∈ Finset.range m,
      (∑ k ∈ Finset.range m, ((X.getD l 0 : ℝ) : ℂ)
          * Complex.exp (2 * Real.pi * Complex.I * (k : ℂ)
              * ((((j : ℤ) - (l : ℤ)) : ℤ) : ℂ) / (m : ℂ)))
        = (if l = j then ((X.getD l 0 : ℝ) : ℂ) * (m : ℂ) else 0) := by
    intro l hl
    rw [← Finset.mul_sum, sum_exp_unit m hm ((j : ℤ) - (l : ℤ))]
    by_cases hlj : l = j
    · subst hlj
      rw [if_pos (by simp : ((m : ℕ) : ℤ) ∣ ((l : ℤ) - (l : ℤ))), if_pos rfl]
    · rw [if_neg ?_, if_neg hlj, mul_zero]
      intro hdvd
      have hlm := Finset.mem_range.mp hl
      have habs : (j : ℤ) - (l : ℤ) ≠ 0 := by
        intro h0
        apply hlj
        omega
      have hle := Int.le_of_dvd (abs_pos.mpr habs) ((dvd_abs _ _).mpr hdvd)
      have hbound : |(j : ℤ) - (l : ℤ)| < (m : ℤ) := by
        rw [abs_lt]
        omega
      omega
  rw [Finset.sum_congr rfl hstep2, Finset.sum_ite_eq' (Finset.range m) j
    (fun l => ((X.getD l 0 : ℝ) : ℂ) * (m : ℂ)), if_pos (Finset.mem_range.mpr hj)]
  ring

/-- Conjugate symmetry of the `rfft` bins of a real input: the bin at
`m - k` is the conjugate of the bin at `k`. -/
theorem rfftBins_conj (X : List ℝ) (m : ℕ) (hm : 0 < m) (k : ℕ) (hk : k ≤ m) :
    (starRingEnd ℂ) (rfftBins X m (m - k)) = rfftBins X m k := by
  rw [rfftBins, rfftBins, map_sum]
  apply Finset.sum_congr rfl
  intro l _
  rw [map_mul, Complex.conj_ofReal]
  congr 1
  rw [← Complex.exp_conj]
  have hconj : (starRingEnd ℂ)
      (-(2 * Real.pi * Complex.I * (l : ℂ) * ((m - k : ℕ) : ℂ)) / (m : ℂ))
      = 2 * Real.pi * Complex.I * (l : ℂ) * ((m - k : ℕ) : ℂ) / (m : ℂ) := by
    rw [map_div₀, map_neg]
    simp [Complex.conj_I, Complex.conj_ofReal, map_mul, map_ofNat, map_natCast]
  rw [hconj, Complex.exp_eq_exp_iff_exists_int]
  refine ⟨l, ?_⟩
  have hmk : ((m - k : ℕ) : ℂ) = (m : ℂ) - (k : ℂ) := by
    push_cast [Nat.cast_sub hk]
    ring
  rw [hmk]
  have hm0 : ((m : ℕ) : ℂ) ≠ 0 := Nat.cast_ne_zero.mpr hm.ne'
  field_simp
  ring

/-- The DC bin of the `rfft` of a real input is real. -/
theorem rfftBins_zero_im (X : List ℝ) (m : ℕ) : (rfftBins X m 0).im = 0 := by
  have hval : rfftBins X m 0 = ((∑ l ∈ Finset.range m, X.getD l 0 : ℝ) : ℂ) := by
    rw [rfftBins, Complex.ofReal_sum]
    apply Finset.sum_congr rfl
    intro l _
    simp
  rw [hval, Complex.ofReal_im]

/-- The Nyquist bin of the `rfft` of a real input of even length is real. -/
theorem rfftBins_half_im (X : List ℝ) (t : ℕ) (ht : 0 < t) :
    (rfftBins X (2 * t) t).im = 0 := by
  have hexp : ∀ l : ℕ,
      Complex.exp (-(2 * Real.pi * Complex.I * (l : ℂ) * (t : ℂ)) / ((2 * t : ℕ) : ℂ))
        = (((-1 : ℝ) ^ l : ℝ) : ℂ) := by
    intro l
    have ht0 : ((t : ℕ) : ℂ) ≠ 0 := Nat.cast_ne_zero.mpr ht.ne'
    have harg : (-(2 * Real.pi * Complex.I * (l : ℂ) * (t : ℂ)) / ((2 * t : ℕ) : ℂ))
        = (l : ℂ) * (-((Real.pi : ℂ) * Complex.I)) := by
      push_cast
      field_simp
      ring
    rw [harg, Complex.exp_nat_mul]
    have hmin : Complex.exp (-((Real.pi : ℂ) * Complex.I)) = -1 := by
      rw [Complex.exp_neg, Complex.exp_pi_mul_I]
      norm_num
    rw [hmin]
    push_cast
    ring
  have hval : rfftBins X (2 * t) t
      = ((∑ l ∈ Finset.range (2 * t), X.getD l 0 * (-1) ^ l : ℝ) : ℂ) := by
    rw [rfftBins, Complex.ofReal_sum]
    apply Finset.sum_congr rfl
    intro l _
    rw [hexp l]
    push_cast
    ring
  rw [hval, Complex.ofReal_im]

/-- C1 (confirmed): the inverse transform undoes the forward transform
exactly over real arithmetic: for every nonempty real sequence of even
length, `revrt (forrt X) = X`. -/
theorem revrt_forrt (X : List ℝ) (hEven : Even X.length) (hpos : 0 < X.length) :
    revrt (forrt X) = X := by
  obtain ⟨t, ht⟩ := hEven
  have ht2 : X.length = 2 * t := by omega
  have htpos : 0 < t := by omega
  have hdiv : X.length / 2 = t := by omega
  have hge2 : 2 ≤ X.length := by omega
  have hmC : ((X.length : ℕ) : ℂ) ≠ 0 := Nat.cast_ne_zero.mpr hpos.ne'
  have hmR : ((X.length : ℕ) : ℝ) ≠ 0 := Nat.cast_ne_zero.mpr hpos.ne'
  set Y := forrt X with hY
  have hYlen : Y.length = X.length := by
    rw [hY]
    simp only [forrt, List.length_append, List.length_map, List.length_dropLast,
      List.length_drop, List.length_range]
    omega
  have hYre : ∀ k, k ≤ X.length / 2 →
      Y.getD k 0 = (rfftBins X X.length k / (X.length : ℂ)).re := by
    intro k hk
    rw [hY]
    simp only [forrt]
    rw [List.getD_eq_getElem _ _ (by
        simp only [List.length_append, List.length_map, List.length_dropLast,
          List.length_drop, List.length_range]
        omega),
      List.getElem_append_left (by
        simp only [List.length_map, List.length_range]
        omega),
      List.getElem_map, List.getElem_map, List.getElem_range]
  have hYim : ∀ k, 1 ≤ k → k < X.length / 2 →
      Y.getD (X.length / 2 + k) 0
        = (rfftBins X X.length k / (X.length : ℂ)).im := by
    intro k hk1 hk2
    rw [hY]
    simp only [forrt]
    rw [List.getD_eq_getElem _ _ (by
        simp only [List.length_append, List.length_map, List.length_dropLast,
          List.length_drop, List.length_range]
        omega),
      List.getElem_append_right (by
        simp only [List.length_map, List.length_range]
        omega),
      List.getElem_map, List.getElem_dropLast, List.getElem_drop,
      List.getElem_map, List.getElem_range]
    simp only [List.length_map, List.length_range]
    rw [show 1 + (X.length / 2 + k - (X.length / 2 + 1)) = k from by omega]
  simp only [revrt]
  rw [hYlen]
  set yh := List.zipWith (fun (re : ℝ) (im : ℝ) => (re : ℂ) + (im : ℂ) * Complex.I)
      (Y.take (X.length / 2 + 1))
      ((0 : ℝ) :: (Y.drop (X.length / 2 + 1) ++ [(0 : ℝ)])) with hyh
  have hyhval : ∀ k, k ≤ X.length / 2 →
      yh.getD k 0 = rfftBins X X.length k / (X.length : ℂ) := by
    intro k hk
    have htake : (Y.take (X.length / 2 + 1)).getD k 0 = Y.getD k 0 := by
      rw [List.getD_eq_getElem _ _ (by
          simp only [List.length_take, hYlen]
          omega),
        List.getElem_take, List.getD_eq_getElem _ _ (by rw [hYlen]; omega)]
    rw [hyh, getD_zipWith _ _ _ 0 0 _ k (by
        simp only [List.length_take, hYlen]
        omega)
      (by
        simp only [List.length_cons, List.length_append, List.length_drop,
          hYlen]
        omega), htake]
    rcases Nat.eq_zero_or_pos k with rfl | hkpos
    · rw [hYre 0 (by omega), List.getD_cons_zero]
      apply Complex.ext
      · simp
      · simp [div_natCast_im, rfftBins_zero_im]
    · obtain ⟨k', rfl⟩ : ∃ k', k = k' + 1 := ⟨k - 1, by omega⟩
      rw [List.getD_cons_succ]
      have hdropLen : (Y.drop (X.length / 2 + 1)).length = X.length / 2 - 1 := by
        rw [List.length_drop, hYlen]
        omega
      rcases eq_or_lt_of_le hk with hkeq | hklt
      · rw [List.getD_append_right _ _ _ _ (by rw [hdropLen]; omega), hdropLen,
          show k' - (X.length / 2 - 1) = 0 from by omega, List.getD_cons_zero,
          hYre _ hk]
        apply Complex.ext
        · simp
        · rw [div_natCast_im]
          simp only [Complex.add_im, Complex.ofReal_im, Complex.mul_im,
            Complex.I_im, Complex.I_re, Complex.ofReal_re]
          rw [show k' + 1 = t from by omega, ht2, rfftBins_half_im X t htpos]
          simp
      · rw [List.getD_append _ _ _ _ (by rw [hdropLen]; omega),
          getD_drop_add _ _ _ _ (by rw [hYlen]; omega),
          show X.length / 2 + 1 + k' = X.length / 2 + (k' + 1) from by omega,
          hYim (k' + 1) (by omega) hklt, hYre _ hk]
        exact Complex.re_add_im _
  have hfull : ∀ k, k < X.length →
      (if k ≤ X.length / 2 then yh.getD k 0
        else (starRingEnd ℂ) (yh.getD (X.length - k) 0))
        = rfftBins X X.length k / (X.length : ℂ) := by
    intro k hklt
    by_cases hkh : k ≤ X.length / 2
    · rw [if_pos hkh, hyhval k hkh]
    · rw [if_neg hkh, hyhval _ (by omega), map_div₀, map_natCast,
        rfftBins_conj X X.length hpos k (by omega)]
  apply List.ext_getElem
  · simp only [List.length_map, irfft, List.length_range]
  · intro j h1 h2
    simp only [irfft, List.getElem_map, List.getElem_range]
    have hsum1 : (∑ k ∈ Finset.range X.length,
        (if k ≤ X.length / 2 then yh.getD k 0
          else (starRingEnd ℂ) (yh.getD (X.length - k) 0))
          * Complex.exp (2 * Real.pi * Complex.I * (j : ℂ) * (k : ℂ)
              / (X.length : ℂ)))
        = ∑ k ∈ Finset.range X.length, rfftBins X X.length k / (X.length : ℂ)
            * Complex.exp (2 * Real.pi * Complex.I * (j : ℂ) * (k : ℂ)
                / (X.length : ℂ)) :=
      Finset.sum_congr rfl (fun k hk => by rw [hfull k (Finset.mem_range.mp hk)])
    rw [hsum1]
    have hsum2 : ∑ k ∈ Finset.range X.length, rfftBins X X.length k
          / (X.length : ℂ)
          * Complex.exp (2 * Real.pi * Complex.I * (j : ℂ) * (k : ℂ)
              / (X.length : ℂ))
        = (∑ k ∈ Finset.range X.length, rfftBins X X.length k
            * Complex.exp (2 * Real.pi * Complex.I * (j : ℂ) * (k : ℂ)
                / (X.length : ℂ))) / (X.length : ℂ) := by
      rw [Finset.sum_div]
      exact Finset.sum_congr rfl (fun k _ => by rw [div_mul_eq_mul_div])
    rw [hsum2, rfftBins_inversion X X.length hpos j h2,
      mul_div_cancel_left₀ _ hmC, div_natCast_re, Complex.ofReal_re,
      List.getD_eq_getElem _ _ h2]
    field_simp

/-- Witness for C1's theorem: the round trip on the concrete even-length
sequence `[1, 2]`. -/
theorem revrt_forrt_witness : revrt (forrt [1, 2]) = [1, 2] :=
  revrt_forrt [1, 2]
    (by rw [show ([1, 2] : List ℝ).length = 2 from rfl]; decide)
    (by rw [show ([1, 2] : List ℝ).length = 2 from rfl]; norm_num)
